import Mathlib

/-!
Shallow embedding of the timetable layout engine of `kw-timetable-2601`:
the lecture-time parser (`src/utils/parseLectureTime.ts`), the slot
consolidator and the grid layout calculator (`src/components/TimetableView.tsx`).
All clock values are minutes since midnight, modelled as `Int`; day indices
are modelled as `Nat` (the source type `DayIndex` is the union 0..6).
Percentages are modelled as `Rat`: the source computes them with JS numbers
on integral minute data, and only clamped-range facts are proved about them,
which hold regardless of float rounding because the clamps are outermost.
JS `Map`/`Set` iterate in insertion order and `Array.prototype.sort` is
stable, so both are modelled by order-preserving list operations
(first-seen key lists, `List.insertionSort`).
-/

/-- One course row (`TimetableEntry` in `src/types/timetable.ts`).  Only the
fields the layout engine reads are modelled: the course code `학정번호`, the
section code `분반`, and the raw schedule string `강의시간`.  The remaining
descriptive fields (title, instructor, ...) are never inspected by the
consolidator or the layout calculator. -/
structure TimetableEntry where
  «학정번호» : String
  «분반» : String
  «강의시간» : String
deriving DecidableEq

/-- A parsed lecture slot (`LectureSlot` in `src/types/timetable.ts`). -/
structure LectureSlot where
  day : Nat
  startMinutes : Int
  endMinutes : Int
deriving DecidableEq

/-- `DAY_MAP` of `parseLectureTime.ts`: the seven day labels 월..일 to 0..6. -/
def DAY_MAP (c : Char) : Option Nat :=
  if c = '월' then some 0
  else if c = '화' then some 1
  else if c = '수' then some 2
  else if c = '목' then some 3
  else if c = '금' then some 4
  else if c = '토' then some 5
  else if c = '일' then some 6
  else none

/-- `PERIOD_START_MINUTES` of the parser: 7 * 60 + 30. -/
def PERIOD_START_MINUTES : Int := 450

/-- `PERIOD_DURATION_MINUTES` of the parser. -/
def PERIOD_DURATION_MINUTES : Int := 90

/-- `periodToMinutes` of `parseLectureTime.ts`. -/
def periodToMinutes (period : Nat) : Int × Int :=
  let s := PERIOD_START_MINUTES + (period : Int) * PERIOD_DURATION_MINUTES
  (s, s + PERIOD_DURATION_MINUTES)

/-- Numeric value of a list of decimal digit characters, most significant
first; the JS `parseInt(digits, 10)` on an all-digit string. -/
def digitsVal (l : List Char) : Nat :=
  l.foldl (fun n c => n * 10 + (c.toNat - 48)) 0

/-- Whitespace characters, standing for the JS regex class `\s` (the schedule
strings only ever contain ASCII whitespace as separators). -/
def isWs (c : Char) : Bool := c.isWhitespace

/-- `String.prototype.trim`: drop whitespace from both ends, on the character
list. -/
def trimWs (l : List Char) : List Char :=
  ((l.dropWhile isWs).reverse.dropWhile isWs).reverse

/-- Accumulator form of `split(/\s+/)` on a trimmed string: cut the character
list at maximal whitespace runs, never emitting empty tokens (on a trimmed
string this is exactly what the JS regex split produces). -/
def splitWsAux : List Char → List Char → List (List Char)
  | [], acc => if acc = [] then [] else [acc.reverse]
  | c :: rest, acc =>
    if isWs c then
      if acc = [] then splitWsAux rest [] else acc.reverse :: splitWsAux rest []
    else splitWsAux rest (c :: acc)

/-- `split(/\s+/)` of the trimmed schedule string. -/
def splitWs (l : List Char) : List (List Char) := splitWsAux l []

/-- The regex match `^(월|화|수|목|금|토|일)(\d+)$` of `parseLectureTime`:
a recognized day label character followed by one or more decimal digits.
Returns the day index and the parsed period.  (The source's follow-up guards
`day === undefined`, `isNaN(period)` and `period < 0` can never fire once the
regex has matched, since the captured group is a nonempty digit string.) -/
def matchToken (t : List Char) : Option (Nat × Nat) :=
  match t with
  | [] => none
  | c :: rest =>
    match DAY_MAP c with
    | none => none
    | some d =>
      if rest ≠ [] ∧ rest.all Char.isDigit then some (d, digitsVal rest) else none

/-- `parseLectureTime` of `src/utils/parseLectureTime.ts`: trim, return `[]`
when empty, split on whitespace, and push one slot per matching token
(non-matching tokens are skipped by `continue`). -/
def parseLectureTime (s : String) : List LectureSlot :=
  let trimmed := trimWs s.data
  if trimmed = [] then []
  else
    (splitWs trimmed).foldl
      (fun slots pair =>
        match matchToken pair with
        | none => slots
        | some (d, period) =>
          let se := periodToMinutes period
          slots ++ [{ day := d, startMinutes := se.1, endMinutes := se.2 }])
      []

/-- `SlotInput` of `TimetableView.tsx`: a parsed slot together with its
owning entry. -/
structure SlotInput where
  entry : TimetableEntry
  day : Nat
  start : Int
  stop : Int
deriving DecidableEq

/-- The grouping key of `mergeConsecutiveSlots`:
the template string `` `${s.entry.학정번호}-${s.entry.분반}-${s.day}` ``.
(`stop` models the source field `end`, which is a Lean keyword.) -/
def slotKey (s : SlotInput) : String :=
  s.entry.«학정번호» ++ "-" ++ s.entry.«분반» ++ "-" ++ toString s.day

/-- The keys of a JS `Map` built by pushing every slot into the bucket of its
key: key order is first-seen order (JS `Map` preserves insertion order). -/
def firstSeenKeys (l : List SlotInput) : List String :=
  l.foldl (fun acc s => if slotKey s ∈ acc then acc else acc ++ [slotKey s]) []

/-- The buckets of that `Map`, in key insertion order; each bucket keeps the
input order of its slots. -/
def groupsOf (l : List SlotInput) : List (List SlotInput) :=
  (firstSeenKeys l).map (fun k => l.filter (fun s => slotKey s = k))

/-- The left-to-right scan of one bucket in `mergeConsecutiveSlots`:
carry a running interval `[runStart, runEnd)`, extend it while the next
slot starts exactly at `runEnd`, otherwise close it and start a new run.
Every emitted interval carries the bucket head's entry and day. -/
def mergeRuns (e : TimetableEntry) (d : Nat) :
    Int → Int → List SlotInput → List SlotInput
  | runStart, runEnd, [] => [⟨e, d, runStart, runEnd⟩]
  | runStart, runEnd, s :: rest =>
    if s.start = runEnd then mergeRuns e d runStart s.stop rest
    else ⟨e, d, runStart, runEnd⟩ :: mergeRuns e d s.start s.stop rest

/-- Comparison used by both `.sort((a, b) => a.start - b.start)` calls. -/
def leStart (a b : SlotInput) : Prop := a.start ≤ b.start

instance : DecidableRel leStart := fun a b => inferInstanceAs (Decidable (a.start ≤ b.start))

instance : IsTotal SlotInput leStart := ⟨fun a b => le_total a.start b.start⟩

instance : IsTrans SlotInput leStart := ⟨fun _ _ _ h1 h2 => le_trans h1 h2⟩

/-- One bucket of `mergeConsecutiveSlots`: sort by start (JS sort is stable,
modelled by the stable `List.insertionSort`), then scan.  The `[]` case never
occurs for buckets of an actual `Map`. -/
def mergeGroup (g : List SlotInput) : List SlotInput :=
  match List.insertionSort leStart g with
  | [] => []
  | s :: rest => mergeRuns s.entry s.day s.start s.stop rest

/-- `mergeConsecutiveSlots` of `TimetableView.tsx` (Stage A): bucket the slots
by `(학정번호, 분반, day)` key and merge each bucket's exactly-adjacent runs,
concatenating the buckets' outputs in bucket order. -/
def mergeConsecutiveSlots (slots : List SlotInput) : List SlotInput :=
  (groupsOf slots).flatMap mergeGroup

/-- `overlaps` of `TimetableView.tsx`: strict half-open interval overlap. -/
def overlaps (aStart aEnd bStart bEnd : Int) : Bool :=
  decide (aStart < bEnd) && decide (bStart < aEnd)

/-- One open group of the Stage-B loop: a running envelope `[start, stop)`
(source fields `start`/`end`) and the member slots merged into it. -/
structure SlotGroup where
  start : Int
  stop : Int
  slots : List SlotInput
deriving DecidableEq

/-- One iteration of the Stage-B loop body for slot `s`.  The source filters
the open groups for all whose envelope overlaps `s`; if none, it appends a
fresh group, otherwise the first overlapping group (kept at its position)
absorbs `s` and then every later overlapping group (removed from the list),
its envelope expanded by min/max over everything absorbed.  Modelled by
scanning for the first overlapping group. -/
def insertSlot : List SlotGroup → SlotInput → List SlotGroup
  | [], s => [⟨s.start, s.stop, [s]⟩]
  | g :: gs, s =>
    if overlaps s.start s.stop g.start g.stop then
      let ovRest := gs.filter (fun g2 => overlaps s.start s.stop g2.start g2.stop)
      let keep := gs.filter (fun g2 => !overlaps s.start s.stop g2.start g2.stop)
      ⟨ovRest.foldl (fun a g2 => min a g2.start) (min g.start s.start),
       ovRest.foldl (fun a g2 => max a g2.stop) (max g.stop s.stop),
       g.slots ++ [s] ++ ovRest.flatMap SlotGroup.slots⟩ :: keep
    else g :: insertSlot gs s

/-- The whole Stage-B loop for one day: sort the day's slots by start, then
fold the group-merge step over them in order. -/
def processDay (daySlots : List SlotInput) : List SlotGroup :=
  (List.insertionSort leStart daySlots).foldl insertSlot []

/-- The entry key used for deduplication when a block is emitted:
`` `${s.entry.학정번호}-${s.entry.분반}` ``. -/
def entryKey (e : TimetableEntry) : String :=
  e.«학정번호» ++ "-" ++ e.«분반»

/-- The `seen`-set deduplication loop over a final group's slots: keep each
entry whose key has not been seen yet, in first-seen order. -/
def dedupEntries (seen : List String) : List SlotInput → List TimetableEntry
  | [] => []
  | s :: rest =>
    if entryKey s.entry ∈ seen then dedupEntries seen rest
    else s.entry :: dedupEntries (entryKey s.entry :: seen) rest

/-- A display block of `mergeOverlappingSlots` (source fields
`day`, `start`, `end`, `entries`, `isConflict`). -/
structure DisplayBlock where
  day : Nat
  start : Int
  stop : Int
  entries : List TimetableEntry
  isConflict : Bool
deriving DecidableEq

/-- Emission of one final group as a display block: deduplicate the
contributing entries and set `isConflict := entries.length > 1`. -/
def mkBlock (day : Nat) (g : SlotGroup) : DisplayBlock :=
  let entries := dedupEntries [] g.slots
  ⟨day, g.start, g.stop, entries, decide (1 < entries.length)⟩

/-- The distinct days of the input, in first-seen order: the keys of the
`byDay` map of `mergeOverlappingSlots`. -/
def firstSeenDays (l : List SlotInput) : List Nat :=
  l.foldl (fun acc s => if s.day ∈ acc then acc else acc ++ [s.day]) []

/-- `mergeOverlappingSlots` of `TimetableView.tsx` (Stage B): bucket the
Stage-A intervals by day, run the overlap-grouping loop on each day's sorted
slots, and emit one display block per final group, day by day. -/
def mergeOverlappingSlots (slots : List SlotInput) : List DisplayBlock :=
  (firstSeenDays slots).flatMap (fun d =>
    (processDay (slots.filter (fun s => s.day = d))).map (mkBlock d))

/-- `DEFAULT_START_MINUTES` of `TimetableView.tsx`: 9 * 60. -/
def DEFAULT_START_MINUTES : Int := 540

/-- `DEFAULT_END_MINUTES` of `TimetableView.tsx`: 18 * 60. -/
def DEFAULT_END_MINUTES : Int := 1080

/-- `DEFAULT_DAYS` of `TimetableView.tsx`: Monday through Friday. -/
def DEFAULT_DAYS : List Nat := [0, 1, 2, 3, 4]

/-- The display-period anchor `PERIOD_START_MINUTES` of `TimetableView.tsx`
(9:00; distinct from the parser's 7:30 anchor of the same name). -/
def VIEW_PERIOD_START_MINUTES : Int := 540

/-- `PERIOD_DURATION` of `TimetableView.tsx`. -/
def PERIOD_DURATION : Int := 90

/-- `String.prototype.split(':')`: cut at every colon, keeping empty pieces. -/
def splitColon : List Char → List (List Char)
  | [] => [[]]
  | c :: rest =>
    if c = ':' then [] :: splitColon rest
    else
      match splitColon rest with
      | t :: ts => (c :: t) :: ts
      | [] => [[c]]

/-- JS `Number(str)` restricted to the strings `timeToMinutes` meets:
`""` is 0 and a nonempty all-digit string is its decimal value; anything
else is NaN (`none`).  (Signs, decimals and exponents, which a time input
never produces, are not modelled.) -/
def jsNumber (t : List Char) : Option Int :=
  if t = [] then some 0
  else if t.all Char.isDigit then some ((digitsVal t : Nat) : Int) else none

/-- `timeToMinutes` of `TimetableView.tsx`: split `"HH:MM"` at the colon,
convert both pieces with `Number`; a NaN hour falls back to the default
start, a NaN minute counts as 0.  (When the string has no colon at all the
source produces NaN from `h * 60 + undefined`; that float-only value is
outside this integral model, which returns `h * 60` there.  No claim
depends on colonless overrides.) -/
def timeToMinutes (time : String) : Int :=
  let parts := splitColon time.data
  match jsNumber (parts.headD []) with
  | none => DEFAULT_START_MINUTES
  | some h =>
    h * 60 +
      match parts[1]? with
      | none => 0
      | some ms => match jsNumber ms with
        | none => 0
        | some m => m

/-- The slot-collection loop of the `useMemo` body: parse every entry's
schedule string and tag each slot with its entry. -/
def parseAllSlots (entries : List TimetableEntry) : List SlotInput :=
  entries.flatMap (fun e =>
    (parseLectureTime e.«강의시간»).map (fun sl =>
      ⟨e, sl.day, sl.startMinutes, sl.endMinutes⟩))

/-- The running `minStart` of the `useMemo` body: `Math.min` folded over the
slot starts, seeded with `DEFAULT_START_MINUTES`. -/
def minStartOf (slots : List SlotInput) : Int :=
  slots.foldl (fun a s => min a s.start) DEFAULT_START_MINUTES

/-- The running `maxEnd`: `Math.max` folded over the slot ends, seeded with
`DEFAULT_END_MINUTES`. -/
def maxEndOf (slots : List SlotInput) : Int :=
  slots.foldl (fun a s => max a s.stop) DEFAULT_END_MINUTES

/-- The `daysSet` accumulation: a `Set` seeded with `DEFAULT_DAYS` into which
every slot's day is inserted (insertion order, first occurrence kept). -/
def daysSetOf (slots : List SlotInput) : List Nat :=
  slots.foldl (fun acc s => if s.day ∈ acc then acc else acc ++ [s.day]) DEFAULT_DAYS

/-- A JS `Set` built from a day list: keep first occurrences. -/
def dedupDays (l : List Nat) : List Nat :=
  l.foldl (fun acc d => if d ∈ acc then acc else acc ++ [d]) []

/-- `totalMinutes` of the `useMemo` body: the window length floored at one
minute. -/
def totalMinutesOf (gridStart gridEnd : Int) : Int :=
  max 1 (gridEnd - gridStart)

/-- A positioned block: the display block spread together with its computed
`topPercent` and `heightPercent`. -/
structure PositionedBlock where
  day : Nat
  start : Int
  stop : Int
  entries : List TimetableEntry
  isConflict : Bool
  topPercent : ℚ
  heightPercent : ℚ
deriving DecidableEq

/-- The per-block position mapping of the `useMemo` body: clip the block to
the window, express top and bottom as clamped percentages of the window
length, and let the height be their (non-negative) difference. -/
def positionBlock (gridStart gridEnd : Int) (s : DisplayBlock) : PositionedBlock :=
  let total : ℚ := ((totalMinutesOf gridStart gridEnd : Int) : ℚ)
  let topPercent : ℚ :=
    min 100 (max 0 ((((max s.start gridStart - gridStart : Int) : ℚ) / total) * 100))
  let endPercent : ℚ :=
    min 100 (max 0 ((((min s.stop gridEnd - gridStart : Int) : ℚ) / total) * 100))
  ⟨s.day, s.start, s.stop, s.entries, s.isConflict,
   topPercent, max 0 (endPercent - topPercent)⟩

/-- The `timeLabels` memo: one label every 30 minutes from `gridStart` while
`m <= gridEnd`, then `gridEnd` itself appended when the last step fell short. -/
def timeLabels (gridStart gridEnd : Int) : List Int :=
  let labels :=
    if gridStart ≤ gridEnd then
      (List.range ((gridEnd - gridStart).toNat / 30 + 1)).map
        (fun i => gridStart + 30 * (i : Int))
    else []
  match labels.getLast? with
  | none => labels
  | some last => if last < gridEnd then labels ++ [gridEnd] else labels

/-- `getPeriodsInRange` of `TimetableView.tsx`: display periods 1..6 anchored
at 9:00, kept when they intersect the window and clipped to it. -/
def getPeriodsInRange (startMin endMin : Int) : List (Nat × Int × Int) :=
  (List.range 6).filterMap (fun i =>
    let p : Nat := i + 1
    let ps : Int := VIEW_PERIOD_START_MINUTES + ((p : Int) - 1) * PERIOD_DURATION
    let pe : Int := ps + PERIOD_DURATION
    if pe > startMin ∧ ps < endMin then some (p, max ps startMin, min pe endMin)
    else none)

/-- The rendered view data: resolved window bounds, day columns, positioned
blocks and both axis label lists. -/
structure ViewResult where
  gridStart : Int
  gridEnd : Int
  days : List Nat
  blocks : List PositionedBlock
  timeLabels : List Int
  periodLabels : List (Nat × Int × Int)
deriving DecidableEq

/-- The whole `TimetableView` computation for one render: the `useMemo` body
(bounds, days, blocks) plus the two label memos, as a function of the entry
list and the view state (`customStart`, `customEnd`, `includedDays`). -/
def computeView (entries : List TimetableEntry)
    (customStart customEnd : Option String)
    (includedDays : Option (List Nat)) : ViewResult :=
  let allSlots := parseAllSlots entries
  let gridStart :=
    match customStart with
    | some t => timeToMinutes t
    | none => match allSlots with
      | [] => DEFAULT_START_MINUTES
      | _ => minStartOf allSlots
  let gridEnd :=
    match customEnd with
    | some t => timeToMinutes t
    | none => match allSlots with
      | [] => DEFAULT_END_MINUTES
      | _ => maxEndOf allSlots
  let days :=
    match includedDays with
    | some ds => List.insertionSort (fun a b => a ≤ b) (dedupDays ds)
    | none => List.insertionSort (fun a b => a ≤ b) (daysSetOf allSlots)
  let displaySlots := mergeOverlappingSlots (mergeConsecutiveSlots allSlots)
  let blocks :=
    ((displaySlots.filter (fun s => decide (s.day ∈ days))).map
      (positionBlock gridStart gridEnd)).filter (fun b => decide (0 < b.heightPercent))
  ⟨gridStart, gridEnd, days, blocks, timeLabels gridStart gridEnd,
   getPeriodsInRange gridStart gridEnd⟩

/-! ### Generic fold lemmas for the `Math.min` / `Math.max` accumulations -/

theorem foldl_min_le_init {α : Type} (k : α → Int) :
    ∀ (l : List α) (a : Int), l.foldl (fun acc x => min acc (k x)) a ≤ a := by
  intro l
  induction l with
  | nil => intro a; exact le_refl a
  | cons x xs ih => intro a; exact le_trans (ih (min a (k x))) (min_le_left _ _)

theorem foldl_min_le_mem {α : Type} (k : α → Int) :
    ∀ (l : List α) (a : Int) (x : α), x ∈ l →
      l.foldl (fun acc x => min acc (k x)) a ≤ k x := by
  intro l
  induction l with
  | nil => intro a x hx; exact absurd hx (List.not_mem_nil x)
  | cons y ys ih =>
    intro a x hx
    rcases List.mem_cons.mp hx with h | h
    · subst h
      exact le_trans (foldl_min_le_init k ys (min a (k x))) (min_le_right _ _)
    · exact ih (min a (k y)) x h

theorem foldl_min_eq_or {α : Type} (k : α → Int) :
    ∀ (l : List α) (a : Int),
      l.foldl (fun acc x => min acc (k x)) a = a ∨
      ∃ x ∈ l, l.foldl (fun acc x => min acc (k x)) a = k x := by
  intro l
  induction l with
  | nil => intro a; exact Or.inl rfl
  | cons y ys ih =>
    intro a
    rcases ih (min a (k y)) with h | ⟨x, hx, heq⟩
    · rcases min_cases a (k y) with ⟨hm, _⟩ | ⟨hm, _⟩
      · exact Or.inl (by rw [List.foldl_cons, h, hm])
      · exact Or.inr ⟨y, List.mem_cons_self y ys, by rw [List.foldl_cons, h, hm]⟩
    · exact Or.inr ⟨x, List.mem_cons_of_mem y hx, heq⟩

theorem le_foldl_max_init {α : Type} (k : α → Int) :
    ∀ (l : List α) (a : Int), a ≤ l.foldl (fun acc x => max acc (k x)) a := by
  intro l
  induction l with
  | nil => intro a; exact le_refl a
  | cons x xs ih => intro a; exact le_trans (le_max_left _ _) (ih (max a (k x)))

theorem mem_le_foldl_max {α : Type} (k : α → Int) :
    ∀ (l : List α) (a : Int) (x : α), x ∈ l →
      k x ≤ l.foldl (fun acc x => max acc (k x)) a := by
  intro l
  induction l with
  | nil => intro a x hx; exact absurd hx (List.not_mem_nil x)
  | cons y ys ih =>
    intro a x hx
    rcases List.mem_cons.mp hx with h | h
    · subst h
      exact le_trans (le_max_right _ _) (le_foldl_max_init k ys (max a (k x)))
    · exact ih (max a (k y)) x h

theorem foldl_max_eq_or {α : Type} (k : α → Int) :
    ∀ (l : List α) (a : Int),
      l.foldl (fun acc x => max acc (k x)) a = a ∨
      ∃ x ∈ l, l.foldl (fun acc x => max acc (k x)) a = k x := by
  intro l
  induction l with
  | nil => intro a; exact Or.inl rfl
  | cons y ys ih =>
    intro a
    rcases ih (max a (k y)) with h | ⟨x, hx, heq⟩
    · rcases max_cases a (k y) with ⟨hm, _⟩ | ⟨hm, _⟩
      · exact Or.inl (by rw [List.foldl_cons, h, hm])
      · exact Or.inr ⟨y, List.mem_cons_self y ys, by rw [List.foldl_cons, h, hm]⟩
    · exact Or.inr ⟨x, List.mem_cons_of_mem y hx, heq⟩

/-! ### Basic facts about the half-open overlap test -/

theorem overlaps_iff {a b c d : Int} : overlaps a b c d = true ↔ a < d ∧ c < b := by
  simp [overlaps]

theorem overlaps_comm (a b c d : Int) : overlaps a b c d = overlaps c d a b := by
  simp [overlaps, Bool.and_comm]

theorem overlaps_point {a b c d : Int} (h : overlaps a b c d = true)
    (hab : a < b) (hcd : c < d) :
    ∃ t : Int, a ≤ t ∧ t < b ∧ c ≤ t ∧ t < d := by
  rw [overlaps_iff] at h
  exact ⟨max a c, le_max_left _ _, max_lt hab h.2, le_max_right _ _, max_lt h.1 hcd⟩

theorem overlaps_of_point {a b c d t : Int}
    (h1 : a ≤ t) (h2 : t < b) (h3 : c ≤ t) (h4 : t < d) :
    overlaps a b c d = true := by
  rw [overlaps_iff]; omega

/-! ### Sample data used by the concrete witnesses and counterexamples -/

/-- Sample entry A. -/
def entA : TimetableEntry := ⟨"CS101", "01", ""⟩

/-- Sample entry B (a different course code). -/
def entB : TimetableEntry := ⟨"CS102", "01", ""⟩

/-- Sample entry C (a third course code). -/
def entC : TimetableEntry := ⟨"CS103", "01", ""⟩

/-- A sample entry meeting at period 4 on Monday (10 slots start 13:30). -/
def entMon4 : TimetableEntry := ⟨"CS101", "01", "월4"⟩

/-- A sample entry whose schedule string repeats the same token. -/
def entMon1Twice : TimetableEntry := ⟨"CS101", "01", "월1 월1"⟩

/-- The slot parsed (twice) from `entMon1Twice`. -/
def slotDup : SlotInput := ⟨entMon1Twice, 0, 540, 630⟩

/-! ### Further definitions used only to state and prove the theorems below -/

/-- The character for one decimal digit value (a proof device, not source
code). -/
def digitChar (r : Nat) : Char :=
  if r = 0 then '0' else if r = 1 then '1' else if r = 2 then '2'
  else if r = 3 then '3' else if r = 4 then '4' else if r = 5 then '5'
  else if r = 6 then '6' else if r = 7 then '7' else if r = 8 then '8' else '9'

/-- The decimal digit string of a natural number (a proof device used to show
every period value is reachable from some token). -/
def natDigits (n : Nat) : List Char :=
  if _h : n < 10 then [digitChar n]
  else natDigits (n / 10) ++ [digitChar (n % 10)]
termination_by n
decreasing_by exact Nat.div_lt_self (by omega) (by omega)

/-- The per-token slot of the parser contract as the specification words it
(claim C5): a token is one recognized day label (via the same seven-label
table) followed by one or more digits naming a period `p`, and contributes
the slot `(day, 450 + p * 90, 450 + p * 90 + 90)`; any other token
contributes nothing. -/
def specTokenSlot (t : List Char) : Option LectureSlot :=
  match t with
  | [] => none
  | c :: ds =>
    match DAY_MAP c with
    | none => none
    | some d =>
      if ds ≠ [] ∧ ds.all Char.isDigit then
        some ⟨d, 450 + (digitsVal ds : Int) * 90, 450 + (digitsVal ds : Int) * 90 + 90⟩
      else none

/-- The parser contract as the specification words it (claim C5): split the
trimmed input on whitespace and keep the slots of the matching tokens, in
token order; empty or whitespace-only input yields the empty list because
splitting produces no tokens. -/
def specParseLectureTime (s : String) : List LectureSlot :=
  (splitWs (trimWs s.data)).filterMap specTokenSlot

/-- Well-formedness of one open Stage-B group: it has members, every member
interval is positive and lies inside the envelope, and every minute of the
envelope is covered by some member (the envelope has no gaps). -/
def GroupWF (g : SlotGroup) : Prop :=
  g.slots ≠ [] ∧
  (∀ m ∈ g.slots, m.start < m.stop) ∧
  (∀ m ∈ g.slots, g.start ≤ m.start ∧ m.stop ≤ g.stop) ∧
  (∀ t : Int, g.start ≤ t → t < g.stop → ∃ m ∈ g.slots, m.start ≤ t ∧ t < m.stop)

/-- The open groups of the Stage-B loop have pairwise non-overlapping
envelopes. -/
def EnvDisjoint (gs : List SlotGroup) : Prop :=
  List.Pairwise (fun a b => overlaps a.start a.stop b.start b.stop = false) gs

/-! ## Theorems -/

/-- C3: In Stage A (`mergeConsecutiveSlots`), two slots of the same entry and
day, sorted by start, merge into a single interval exactly when the earlier
slot's end equals the later slot's start; otherwise — in particular for any
positive gap, even one minute — they remain separate intervals. -/
theorem stageA_adjacency (e : TimetableEntry) (d : Nat) (a b c f : Int) (h : a ≤ c) :
    mergeConsecutiveSlots [⟨e, d, a, b⟩, ⟨e, d, c, f⟩] =
      if c = b then [⟨e, d, a, f⟩] else [⟨e, d, a, b⟩, ⟨e, d, c, f⟩] := by
  simp [mergeConsecutiveSlots, groupsOf, firstSeenKeys, slotKey, mergeGroup,
    List.insertionSort, List.orderedInsert, leStart, h, mergeRuns]

/-- Witness for C3: the adjacent pair 화2+화3 merges into one interval, while
a one-minute gap keeps the pair separate. -/
theorem stageA_adjacency_witness :
    mergeConsecutiveSlots [⟨entA, 1, 630, 720⟩, ⟨entA, 1, 720, 810⟩] =
      [⟨entA, 1, 630, 810⟩] ∧
    mergeConsecutiveSlots [⟨entA, 1, 630, 720⟩, ⟨entA, 1, 721, 810⟩] =
      [⟨entA, 1, 630, 720⟩, ⟨entA, 1, 721, 810⟩] := by
  constructor
  · have h := stageA_adjacency entA 1 630 720 720 810 (by decide)
    simpa using h
  · have h := stageA_adjacency entA 1 630 720 721 810 (by decide)
    simpa using h

/-- C1 counterexample: for the single entry 월4 the only parsed slot is
`[810, 900)`, yet the resolved bounds are 540 and 1080 — the defaults seeded
into the running min/max — not the slot extremes 810 and 900 the claim
demands. -/
theorem gridBounds_min_max_counterexample :
    parseAllSlots [entMon4] = [⟨entMon4, 0, 810, 900⟩] ∧
    (computeView [entMon4] none none none).gridStart = 540 ∧
    (computeView [entMon4] none none none).gridEnd = 1080 ∧
    ¬ ((computeView [entMon4] none none none).gridStart = 810 ∧
       (computeView [entMon4] none none none).gridEnd = 900) := by
  decide

/-- C1 amended: with no custom start/end override, the resolved bounds are
the slot extremes extended to cover the default 09:00–18:00 window: the
start is a lower bound of all slot starts, is at most the 09:00 default, and
is attained by the default or by some slot start (so it equals
`min(540, min start)`), and dually the end equals `max(1080, max end)`;
with no slots at all the bounds are exactly the defaults. -/
theorem gridBounds_default_extended (entries : List TimetableEntry) (incl : Option (List Nat)) :
    (parseAllSlots entries = [] →
      (computeView entries none none incl).gridStart = DEFAULT_START_MINUTES ∧
      (computeView entries none none incl).gridEnd = DEFAULT_END_MINUTES) ∧
    (parseAllSlots entries ≠ [] →
      ((computeView entries none none incl).gridStart ≤ DEFAULT_START_MINUTES ∧
       (∀ s ∈ parseAllSlots entries, (computeView entries none none incl).gridStart ≤ s.start) ∧
       ((computeView entries none none incl).gridStart = DEFAULT_START_MINUTES ∨
         ∃ s ∈ parseAllSlots entries, (computeView entries none none incl).gridStart = s.start)) ∧
      (DEFAULT_END_MINUTES ≤ (computeView entries none none incl).gridEnd ∧
       (∀ s ∈ parseAllSlots entries, s.stop ≤ (computeView entries none none incl).gridEnd) ∧
       ((computeView entries none none incl).gridEnd = DEFAULT_END_MINUTES ∨
         ∃ s ∈ parseAllSlots entries, (computeView entries none none incl).gridEnd = s.stop))) := by
  have hs : (computeView entries none none incl).gridStart =
      (match parseAllSlots entries with
       | [] => DEFAULT_START_MINUTES
       | _ => minStartOf (parseAllSlots entries)) := rfl
  have he : (computeView entries none none incl).gridEnd =
      (match parseAllSlots entries with
       | [] => DEFAULT_END_MINUTES
       | _ => maxEndOf (parseAllSlots entries)) := rfl
  constructor
  · intro h
    rw [hs, he, h]
    exact ⟨rfl, rfl⟩
  · intro h
    cases hsl : parseAllSlots entries with
    | nil => exact absurd hsl h
    | cons s0 rest =>
      rw [hs, he, hsl]
      refine ⟨⟨?_, ?_, ?_⟩, ?_, ?_, ?_⟩
      · exact foldl_min_le_init SlotInput.start (s0 :: rest) DEFAULT_START_MINUTES
      · intro s hsmem
        exact foldl_min_le_mem SlotInput.start (s0 :: rest) DEFAULT_START_MINUTES s hsmem
      · exact foldl_min_eq_or SlotInput.start (s0 :: rest) DEFAULT_START_MINUTES
      · exact le_foldl_max_init SlotInput.stop (s0 :: rest) DEFAULT_END_MINUTES
      · intro s hsmem
        exact mem_le_foldl_max SlotInput.stop (s0 :: rest) DEFAULT_END_MINUTES s hsmem
      · exact foldl_max_eq_or SlotInput.stop (s0 :: rest) DEFAULT_END_MINUTES

/-- Witness for the amended C1 at the concrete entry 월4 (slots exist, so the
second branch applies). -/
theorem gridBounds_default_extended_witness :
    (computeView [entMon4] none none none).gridStart ≤ DEFAULT_START_MINUTES :=
  ((gridBounds_default_extended [entMon4] none).2 (by decide)).1.1

/-- C6 counterexample: the parser duplicates a repeated token, and Stage A
then emits the duplicated interval twice inside one entry+day group — two
identical, overlapping intervals — so the claimed pairwise non-overlap of a
group's output fails on duplicate input. -/
theorem stageA_duplicate_counterexample :
    parseLectureTime "월1 월1" = [⟨0, 540, 630⟩, ⟨0, 540, 630⟩] ∧
    groupsOf [slotDup, slotDup] = [[slotDup, slotDup]] ∧
    mergeGroup [slotDup, slotDup] = [slotDup, slotDup] ∧
    mergeConsecutiveSlots [slotDup, slotDup] = [slotDup, slotDup] ∧
    overlaps slotDup.start slotDup.stop slotDup.start slotDup.stop = true := by
  decide

/-- The overlap test fails exactly when the strict two-sided inequality fails. -/
theorem overlaps_eq_false_iff {a b c d : Int} :
    overlaps a b c d = false ↔ ¬(a < d ∧ c < b) := by
  rw [← Bool.not_eq_true, overlaps_iff]

/-- Every interval emitted by the Stage-A scan starts no earlier than the
current run start. -/
theorem mergeRuns_start_lb (e : TimetableEntry) (d : Nat) :
    ∀ (l : List SlotInput) (a b : Int), List.Sorted leStart l →
      (∀ x ∈ l, a ≤ x.start) → ∀ o ∈ mergeRuns e d a b l, a ≤ o.start := by
  intro l
  induction l with
  | nil =>
    intro a b _ _ o ho
    simp only [mergeRuns, List.mem_singleton] at ho
    subst ho
    exact le_refl a
  | cons s rest ih =>
    intro a b hsorted hlb o ho
    rw [List.sorted_cons] at hsorted
    simp only [mergeRuns] at ho
    by_cases hsb : s.start = b
    · rw [if_pos hsb] at ho
      exact ih a s.stop hsorted.2 (fun x hx => hlb x (List.mem_cons_of_mem s hx)) o ho
    · rw [if_neg hsb] at ho
      rcases List.mem_cons.mp ho with h | h
      · subst h; exact le_refl a
      · have h2 := ih s.start s.stop hsorted.2 (fun x hx => hsorted.1 x hx) o h
        exact le_trans (hlb s (List.mem_cons_self s rest)) h2

/-- The Stage-A scan emits intervals sorted by start whenever its input is
sorted by start. -/
theorem mergeRuns_sorted (e : TimetableEntry) (d : Nat) :
    ∀ (l : List SlotInput) (a b : Int), List.Sorted leStart l →
      (∀ x ∈ l, a ≤ x.start) → List.Sorted leStart (mergeRuns e d a b l) := by
  intro l
  induction l with
  | nil =>
    intro a b _ _
    simp [mergeRuns, List.sorted_singleton]
  | cons s rest ih =>
    intro a b hsorted hlb
    rw [List.sorted_cons] at hsorted
    simp only [mergeRuns]
    by_cases hsb : s.start = b
    · rw [if_pos hsb]
      exact ih a s.stop hsorted.2 (fun x hx => hlb x (List.mem_cons_of_mem s hx))
    · rw [if_neg hsb]
      rw [List.sorted_cons]
      constructor
      · intro o ho
        have h2 := mergeRuns_start_lb e d rest s.start s.stop hsorted.2
          (fun x hx => hsorted.1 x hx) o ho
        exact le_trans (hlb s (List.mem_cons_self s rest)) h2
      · exact ih s.start s.stop hsorted.2 (fun x hx => hsorted.1 x hx)

/-- When the remaining slots are chained (each ends before the next starts)
the Stage-A scan emits a chained interval list. -/
theorem mergeRuns_chain (e : TimetableEntry) (d : Nat) :
    ∀ (l : List SlotInput) (a b : Int),
      List.Pairwise (fun x y : SlotInput => x.stop ≤ y.start) l →
      (∀ x ∈ l, x.start ≤ x.stop) →
      (∀ x ∈ l, b ≤ x.start) →
      List.Pairwise (fun x y : SlotInput => x.stop ≤ y.start) (mergeRuns e d a b l) := by
  intro l
  induction l with
  | nil =>
    intro a b _ _ _
    simp [mergeRuns]
  | cons s rest ih =>
    intro a b hchain hpos hlb
    rw [List.pairwise_cons] at hchain
    simp only [mergeRuns]
    have hrest_sorted : List.Sorted leStart rest :=
      hchain.2.imp_of_mem (fun hx _ hxy => le_trans (hpos _ (List.mem_cons_of_mem s hx)) hxy)
    by_cases hsb : s.start = b
    · rw [if_pos hsb]
      exact ih a s.stop hchain.2 (fun x hx => hpos x (List.mem_cons_of_mem s hx))
        (fun x hx => hchain.1 x hx)
    · rw [if_neg hsb]
      rw [List.pairwise_cons]
      constructor
      · intro o ho
        have h2 := mergeRuns_start_lb e d rest s.start s.stop hrest_sorted
          (fun x hx => le_trans (hpos s (List.mem_cons_self s rest)) (hchain.1 x hx)) o ho
        exact le_trans (hlb s (List.mem_cons_self s rest)) h2
      · exact ih s.start s.stop hchain.2 (fun x hx => hpos x (List.mem_cons_of_mem s hx))
          (fun x hx => hchain.1 x hx)

/-- C6 amended: within one entry+day group, the Stage-A output intervals are
always sorted by start; and they are pairwise non-overlapping provided the
group's input slots are positive and pairwise non-overlapping.  (The original
claim, refuted by `stageA_duplicate_counterexample`, asserted non-overlap
unconditionally, including for repeated identical slots.) -/
theorem stageA_group_sorted_disjoint (l : List SlotInput) (g : List SlotInput)
    (_hg : g ∈ groupsOf l) :
    List.Sorted leStart (mergeGroup g) ∧
    ((∀ s ∈ g, s.start < s.stop) →
      List.Pairwise (fun x y : SlotInput => overlaps x.start x.stop y.start y.stop = false) g →
      List.Pairwise (fun x y : SlotInput => overlaps x.start x.stop y.start y.stop = false)
        (mergeGroup g)) := by
  have hperm : (List.insertionSort leStart g).Perm g := List.perm_insertionSort leStart g
  have hsorted : List.Sorted leStart (List.insertionSort leStart g) :=
    List.sorted_insertionSort leStart g
  cases hcase : List.insertionSort leStart g with
  | nil =>
    unfold mergeGroup
    rw [hcase]
    exact ⟨List.sorted_nil, fun _ _ => List.Pairwise.nil⟩
  | cons s0 rest =>
    rw [hcase] at hperm hsorted
    unfold mergeGroup
    rw [hcase]
    have hs0 := List.sorted_cons.mp hsorted
    constructor
    · exact mergeRuns_sorted s0.entry s0.day rest s0.start s0.stop hs0.2
        (fun x hx => hs0.1 x hx)
    · intro hpos hpw
      have hsymm : ∀ {x y : SlotInput},
          overlaps x.start x.stop y.start y.stop = false →
          overlaps y.start y.stop x.start x.stop = false := by
        intro x y h
        rw [overlaps_comm]
        exact h
      have hpw' : List.Pairwise
          (fun x y : SlotInput => overlaps x.start x.stop y.start y.stop = false)
          (s0 :: rest) := (List.Perm.pairwise_iff hsymm hperm).mpr hpw
      have hpos' : ∀ x ∈ s0 :: rest, x.start < x.stop :=
        fun x hx => hpos x (hperm.subset hx)
      have hchain : List.Pairwise (fun x y : SlotInput => x.stop ≤ y.start) (s0 :: rest) := by
        refine (List.Pairwise.and hsorted hpw').imp_of_mem ?_
        intro x y hx hy hxy
        have hx' := hpos' x hx
        have hy' := hpos' y hy
        rcases hxy with ⟨hle, hov⟩
        rw [overlaps_eq_false_iff] at hov
        simp only [leStart] at hle
        omega
      rw [List.pairwise_cons] at hchain
      have hres := mergeRuns_chain s0.entry s0.day rest s0.start s0.stop hchain.2
        (fun x hx => le_of_lt (hpos' x (List.mem_cons_of_mem s0 hx)))
        (fun x hx => hchain.1 x hx)
      refine hres.imp ?_
      intro x y hxy
      rw [overlaps_eq_false_iff]
      omega

/-- Witness for the amended C6 at a concrete two-slot group. -/
theorem stageA_group_sorted_disjoint_witness :
    List.Pairwise (fun x y : SlotInput => overlaps x.start x.stop y.start y.stop = false)
      (mergeGroup [⟨entA, 0, 540, 630⟩, ⟨entA, 0, 720, 810⟩]) :=
  (stageA_group_sorted_disjoint [⟨entA, 0, 540, 630⟩, ⟨entA, 0, 720, 810⟩]
    [⟨entA, 0, 540, 630⟩, ⟨entA, 0, 720, 810⟩] (by decide)).2 (by decide) (by decide)

/-- A well-formed group has a positive envelope. -/
theorem groupWF_pos {g : SlotGroup} (h : GroupWF g) : g.start < g.stop := by
  obtain ⟨hne, hpos, hbound, _⟩ := h
  cases hsl : g.slots with
  | nil => exact absurd hsl hne
  | cons m rest =>
    have hm : m ∈ g.slots := by rw [hsl]; exact List.mem_cons_self m rest
    have h1 := hbound m hm
    have h2 := hpos m hm
    omega

/-- Every member of a group after one Stage-B insertion comes from an
existing group or is the inserted slot itself. -/
theorem insertSlot_mem_slots :
    ∀ (gs : List SlotGroup) (s : SlotInput) (g' : SlotGroup), g' ∈ insertSlot gs s →
      ∀ m ∈ g'.slots, (∃ g ∈ gs, m ∈ g.slots) ∨ m = s := by
  intro gs
  induction gs with
  | nil =>
    intro s g' hg' m hm
    simp only [insertSlot, List.mem_singleton] at hg'
    subst hg'
    simp only [List.mem_singleton] at hm
    exact Or.inr hm
  | cons g gs ih =>
    intro s g' hg' m hm
    simp only [insertSlot] at hg'
    by_cases hov : overlaps s.start s.stop g.start g.stop = true
    · rw [if_pos hov] at hg'
      rcases List.mem_cons.mp hg' with h | h
      · subst h
        simp only [List.mem_append, List.mem_singleton] at hm
        rcases hm with (hm | hm) | hm
        · exact Or.inl ⟨g, List.mem_cons_self g gs, hm⟩
        · exact Or.inr hm
        · rcases List.mem_flatMap.mp hm with ⟨o, ho, hmo⟩
          exact Or.inl ⟨o, List.mem_cons_of_mem g (List.mem_of_mem_filter ho), hmo⟩
      · have hgs : g' ∈ gs := List.mem_of_mem_filter h
        exact Or.inl ⟨g', List.mem_cons_of_mem g hgs, hm⟩
    · rw [if_neg hov] at hg'
      rcases List.mem_cons.mp hg' with h | h
      · subst h
        exact Or.inl ⟨g', List.mem_cons_self g' gs, hm⟩
      · rcases ih s g' h m hm with ⟨g2, hg2, hmg2⟩ | heq
        · exact Or.inl ⟨g2, List.mem_cons_of_mem g hg2, hmg2⟩
        · exact Or.inr heq

/-- One Stage-B insertion never creates an empty group. -/
theorem insertSlot_slots_ne_nil :
    ∀ (gs : List SlotGroup) (s : SlotInput), (∀ g ∈ gs, g.slots ≠ []) →
      ∀ g' ∈ insertSlot gs s, g'.slots ≠ [] := by
  intro gs
  induction gs with
  | nil =>
    intro s _ g' hg'
    simp only [insertSlot, List.mem_singleton] at hg'
    subst hg'
    simp
  | cons g gs ih =>
    intro s hne g' hg'
    simp only [insertSlot] at hg'
    by_cases hov : overlaps s.start s.stop g.start g.stop = true
    · rw [if_pos hov] at hg'
      rcases List.mem_cons.mp hg' with h | h
      · subst h; simp
      · exact hne g' (List.mem_cons_of_mem g (List.mem_of_mem_filter h))
    · rw [if_neg hov] at hg'
      rcases List.mem_cons.mp hg' with h | h
      · subst h; exact hne g' (List.mem_cons_self g' gs)
      · exact ih s (fun x hx => hne x (List.mem_cons_of_mem g hx)) g' h

/-- Every minute of the merged envelope lies in the inserted slot, in the
first overlapping group, or in one of the absorbed groups: the envelopes
being merged all overlap the inserted slot, so their hull has no gaps. -/
theorem merged_cases (s : SlotInput) (g : SlotGroup) (ov : List SlotGroup)
    (hovg : overlaps s.start s.stop g.start g.stop = true)
    (hovo : ∀ o ∈ ov, overlaps s.start s.stop o.start o.stop = true) :
    ∀ t : Int,
      ov.foldl (fun a g2 => min a g2.start) (min g.start s.start) ≤ t →
      t < ov.foldl (fun a g2 => max a g2.stop) (max g.stop s.stop) →
      (s.start ≤ t ∧ t < s.stop) ∨ (g.start ≤ t ∧ t < g.stop) ∨
        (∃ o ∈ ov, o.start ≤ t ∧ t < o.stop) := by
  intro t h1 h2
  rcases lt_or_le t s.start with hlt | hge
  · rcases foldl_min_eq_or SlotGroup.start ov (min g.start s.start) with hmin | ⟨o, ho, hoeq⟩
    · rw [hmin] at h1
      rcases min_le_iff.mp h1 with hg1 | hs1
      · have h3 := overlaps_iff.mp hovg
        exact Or.inr (Or.inl ⟨hg1, by omega⟩)
      · omega
    · rw [hoeq] at h1
      have h3 := overlaps_iff.mp (hovo o ho)
      exact Or.inr (Or.inr ⟨o, ho, h1, by omega⟩)
  · rcases lt_or_le t s.stop with hlt2 | hge2
    · exact Or.inl ⟨hge, hlt2⟩
    · rcases foldl_max_eq_or SlotGroup.stop ov (max g.stop s.stop) with hmax | ⟨o, ho, hoeq⟩
      · rw [hmax] at h2
        rcases lt_max_iff.mp h2 with hg2 | hs2
        · have h3 := overlaps_iff.mp hovg
          exact Or.inr (Or.inl ⟨by omega, hg2⟩)
        · omega
      · rw [hoeq] at h2
        have h3 := overlaps_iff.mp (hovo o ho)
        exact Or.inr (Or.inr ⟨o, ho, by omega, h2⟩)

/-- The merged group produced by a Stage-B insertion is well formed. -/
theorem merged_WF (s : SlotInput) (hs : s.start < s.stop) (g : SlotGroup)
    (hWFg : GroupWF g) (ov : List SlotGroup) (hWFov : ∀ o ∈ ov, GroupWF o)
    (hovg : overlaps s.start s.stop g.start g.stop = true)
    (hovo : ∀ o ∈ ov, overlaps s.start s.stop o.start o.stop = true) :
    GroupWF ⟨ov.foldl (fun a g2 => min a g2.start) (min g.start s.start),
             ov.foldl (fun a g2 => max a g2.stop) (max g.stop s.stop),
             g.slots ++ [s] ++ ov.flatMap SlotGroup.slots⟩ := by
  have hmem : ∀ m : SlotInput, m ∈ g.slots ++ [s] ++ ov.flatMap SlotGroup.slots →
      m ∈ g.slots ∨ m = s ∨ ∃ o ∈ ov, m ∈ o.slots := by
    intro m hm
    simp only [List.mem_append, List.mem_singleton] at hm
    rcases hm with (hm | hm) | hm
    · exact Or.inl hm
    · exact Or.inr (Or.inl hm)
    · exact Or.inr (Or.inr (List.mem_flatMap.mp hm))
  refine ⟨by simp, ?_, ?_, ?_⟩
  · intro m hm
    rcases hmem m hm with h | h | ⟨o, ho, hmo⟩
    · exact hWFg.2.1 m h
    · rw [h]; exact hs
    · exact (hWFov o ho).2.1 m hmo
  · intro m hm
    have hminle : ∀ x : Int, x = g.start ∨ x = s.start ∨ (∃ o ∈ ov, x = o.start) →
        ov.foldl (fun a g2 => min a g2.start) (min g.start s.start) ≤ x := by
      intro x hx
      rcases hx with h | h | ⟨o, ho, h⟩
      · subst h
        exact le_trans (foldl_min_le_init SlotGroup.start ov (min g.start s.start))
          (min_le_left _ _)
      · subst h
        exact le_trans (foldl_min_le_init SlotGroup.start ov (min g.start s.start))
          (min_le_right _ _)
      · subst h
        exact foldl_min_le_mem SlotGroup.start ov (min g.start s.start) o ho
    have hmaxge : ∀ x : Int, x = g.stop ∨ x = s.stop ∨ (∃ o ∈ ov, x = o.stop) →
        x ≤ ov.foldl (fun a g2 => max a g2.stop) (max g.stop s.stop) := by
      intro x hx
      rcases hx with h | h | ⟨o, ho, h⟩
      · subst h
        exact le_trans (le_max_left _ _)
          (le_foldl_max_init SlotGroup.stop ov (max g.stop s.stop))
      · subst h
        exact le_trans (le_max_right _ _)
          (le_foldl_max_init SlotGroup.stop ov (max g.stop s.stop))
      · subst h
        exact mem_le_foldl_max SlotGroup.stop ov (max g.stop s.stop) o ho
    rcases hmem m hm with h | h | ⟨o, ho, hmo⟩
    · have hb := hWFg.2.2.1 m h
      exact ⟨le_trans (hminle g.start (Or.inl rfl)) hb.1,
             le_trans hb.2 (hmaxge g.stop (Or.inl rfl))⟩
    · subst h
      exact ⟨hminle m.start (Or.inr (Or.inl rfl)), hmaxge m.stop (Or.inr (Or.inl rfl))⟩
    · have hb := (hWFov o ho).2.2.1 m hmo
      exact ⟨le_trans (hminle o.start (Or.inr (Or.inr ⟨o, ho, rfl⟩))) hb.1,
             le_trans hb.2 (hmaxge o.stop (Or.inr (Or.inr ⟨o, ho, rfl⟩)))⟩
  · intro t h1 h2
    rcases merged_cases s g ov hovg hovo t h1 h2 with ⟨h3, h4⟩ | ⟨h3, h4⟩ | ⟨o, ho, h3, h4⟩
    · exact ⟨s, by simp, h3, h4⟩
    · obtain ⟨m, hm, hm1, hm2⟩ := hWFg.2.2.2 t h3 h4
      exact ⟨m, by simp [hm], hm1, hm2⟩
    · obtain ⟨m, hm, hm1, hm2⟩ := (hWFov o ho).2.2.2 t h3 h4
      refine ⟨m, ?_, hm1, hm2⟩
      simp only [List.mem_append]
      exact Or.inr (List.mem_flatMap.mpr ⟨o, ho, hm⟩)

/-- Non-overlap of group envelopes is symmetric. -/
theorem overlaps_symm_false {a b : SlotGroup}
    (h : overlaps a.start a.stop b.start b.stop = false) :
    overlaps b.start b.stop a.start a.stop = false := by
  rw [overlaps_comm]; exact h

/-- The Stage-B loop invariant: inserting a positive slot preserves group
well-formedness and pairwise envelope disjointness, and every minute of any
resulting envelope was already inside an old envelope or inside the slot. -/
theorem insertSlot_inv (s : SlotInput) (hs : s.start < s.stop) :
    ∀ gs : List SlotGroup, (∀ g ∈ gs, GroupWF g) → EnvDisjoint gs →
      (∀ g ∈ insertSlot gs s, GroupWF g) ∧
      EnvDisjoint (insertSlot gs s) ∧
      (∀ h ∈ insertSlot gs s, ∀ t : Int, h.start ≤ t → t < h.stop →
        (∃ g ∈ gs, g.start ≤ t ∧ t < g.stop) ∨ (s.start ≤ t ∧ t < s.stop)) := by
  intro gs
  induction gs with
  | nil =>
    intro _ _
    refine ⟨?_, ?_, ?_⟩
    · intro g hg
      simp only [insertSlot, List.mem_singleton] at hg
      subst hg
      refine ⟨by simp, ?_, ?_, ?_⟩
      · intro m hm
        simp only [List.mem_singleton] at hm
        subst hm
        exact hs
      · intro m hm
        simp only [List.mem_singleton] at hm
        subst hm
        exact ⟨le_refl _, le_refl _⟩
      · intro t h1 h2
        exact ⟨s, by simp, h1, h2⟩
    · simp only [insertSlot, EnvDisjoint]
      exact List.pairwise_singleton _ _
    · intro h hh t h1 h2
      simp only [insertSlot, List.mem_singleton] at hh
      subst hh
      exact Or.inr ⟨h1, h2⟩
  | cons g gs ih =>
    intro hWF hdisj
    have hWFg : GroupWF g := hWF g (List.mem_cons_self g gs)
    have hWFgs : ∀ x ∈ gs, GroupWF x := fun x hx => hWF x (List.mem_cons_of_mem g hx)
    rw [EnvDisjoint, List.pairwise_cons] at hdisj
    obtain ⟨hdg, hdgs⟩ := hdisj
    by_cases hov : overlaps s.start s.stop g.start g.stop = true
    · have hres : insertSlot (g :: gs) s =
          (⟨(gs.filter fun g2 => overlaps s.start s.stop g2.start g2.stop).foldl
              (fun a g2 => min a g2.start) (min g.start s.start),
            (gs.filter fun g2 => overlaps s.start s.stop g2.start g2.stop).foldl
              (fun a g2 => max a g2.stop) (max g.stop s.stop),
            g.slots ++ [s] ++ (gs.filter fun g2 =>
              overlaps s.start s.stop g2.start g2.stop).flatMap SlotGroup.slots⟩ : SlotGroup)
            :: gs.filter (fun g2 => !overlaps s.start s.stop g2.start g2.stop) := by
        simp only [insertSlot]
        rw [if_pos hov]
      set ovL := gs.filter fun g2 => overlaps s.start s.stop g2.start g2.stop with hovL
      set keepL := gs.filter (fun g2 => !overlaps s.start s.stop g2.start g2.stop) with hkeepL
      have hovo : ∀ o ∈ ovL, overlaps s.start s.stop o.start o.stop = true :=
        fun o ho => (List.mem_filter.mp ho).2
      have hovmem : ∀ o ∈ ovL, o ∈ gs := fun o ho => List.mem_of_mem_filter ho
      have hWFov : ∀ o ∈ ovL, GroupWF o := fun o ho => hWFgs o (hovmem o ho)
      have hkf : ∀ k ∈ keepL, overlaps s.start s.stop k.start k.stop = false := by
        intro k hk
        have h2 := (List.mem_filter.mp hk).2
        simpa using h2
      have hkmem : ∀ k ∈ keepL, k ∈ gs := fun k hk => List.mem_of_mem_filter hk
      have hMWF := merged_WF s hs g hWFg ovL hWFov hov hovo
      have hMpos := groupWF_pos hMWF
      rw [hres]
      refine ⟨?_, ?_, ?_⟩
      · intro g' hg'
        rcases List.mem_cons.mp hg' with h | h
        · rw [h]; exact hMWF
        · exact hWFgs g' (hkmem g' h)
      · rw [EnvDisjoint, List.pairwise_cons]
        constructor
        · intro k hk
          cases hb : overlaps
              (ovL.foldl (fun a g2 => min a g2.start) (min g.start s.start))
              (ovL.foldl (fun a g2 => max a g2.stop) (max g.stop s.stop))
              k.start k.stop with
          | false => rfl
          | true =>
            exfalso
            have hkpos : k.start < k.stop := groupWF_pos (hWFgs k (hkmem k hk))
            obtain ⟨t, ht1, ht2, ht3, ht4⟩ := overlaps_point hb hMpos hkpos
            rcases merged_cases s g ovL hov hovo t ht1 ht2 with
              ⟨h5, h6⟩ | ⟨h5, h6⟩ | ⟨o, ho, h5, h6⟩
            · have h7 := overlaps_of_point h5 h6 ht3 ht4
              rw [hkf k hk] at h7
              exact Bool.false_ne_true h7
            · have h7 := overlaps_of_point h5 h6 ht3 ht4
              rw [hdg k (hkmem k hk)] at h7
              exact Bool.false_ne_true h7
            · have hne : o ≠ k := by
                intro he
                have h9 := hovo o ho
                rw [he, hkf k hk] at h9
                exact Bool.false_ne_true h9
              have h10 : overlaps o.start o.stop k.start k.stop = false :=
                List.Pairwise.forall (fun _ _ h => overlaps_symm_false h) hdgs
                  (hovmem o ho) (hkmem k hk) hne
              have h7 := overlaps_of_point h5 h6 ht3 ht4
              rw [h10] at h7
              exact Bool.false_ne_true h7
        · exact List.Pairwise.sublist (List.filter_sublist gs) hdgs
      · intro h' hh' t h1 h2
        rcases List.mem_cons.mp hh' with h | h
        · rw [h] at h1 h2
          rcases merged_cases s g ovL hov hovo t h1 h2 with
            ⟨h5, h6⟩ | ⟨h5, h6⟩ | ⟨o, ho, h5, h6⟩
          · exact Or.inr ⟨h5, h6⟩
          · exact Or.inl ⟨g, List.mem_cons_self g gs, h5, h6⟩
          · exact Or.inl ⟨o, List.mem_cons_of_mem g (hovmem o ho), h5, h6⟩
        · exact Or.inl ⟨h', List.mem_cons_of_mem g (hkmem h' h), h1, h2⟩
    · have hovf : overlaps s.start s.stop g.start g.stop = false :=
        Bool.eq_false_iff.mpr hov
      have hres : insertSlot (g :: gs) s = g :: insertSlot gs s := by
        simp only [insertSlot]
        rw [if_neg hov]
      obtain ⟨ihWF, ihdisj, ihdom⟩ := ih hWFgs hdgs
      rw [hres]
      refine ⟨?_, ?_, ?_⟩
      · intro g' hg'
        rcases List.mem_cons.mp hg' with h | h
        · rw [h]; exact hWFg
        · exact ihWF g' h
      · rw [EnvDisjoint, List.pairwise_cons]
        constructor
        · intro h' hh'
          cases hb : overlaps g.start g.stop h'.start h'.stop with
          | false => rfl
          | true =>
            exfalso
            have hgpos := groupWF_pos hWFg
            have hpos' := groupWF_pos (ihWF h' hh')
            obtain ⟨t, ht1, ht2, ht3, ht4⟩ := overlaps_point hb hgpos hpos'
            rcases ihdom h' hh' t ht3 ht4 with ⟨E, hE, h5, h6⟩ | ⟨h5, h6⟩
            · have h7 := overlaps_of_point ht1 ht2 h5 h6
              rw [hdg E hE] at h7
              exact Bool.false_ne_true h7
            · have h7 := overlaps_of_point h5 h6 ht1 ht2
              rw [hovf] at h7
              exact Bool.false_ne_true h7
        · exact ihdisj
      · intro h' hh' t h1 h2
        rcases List.mem_cons.mp hh' with h | h
        · rw [h] at h1 h2
          exact Or.inl ⟨g, List.mem_cons_self g gs, h1, h2⟩
        · rcases ihdom h' h t h1 h2 with ⟨E, hE, h5, h6⟩ | hmid
          · exact Or.inl ⟨E, List.mem_cons_of_mem g hE, h5, h6⟩
          · exact Or.inr hmid

/-- The invariant holds after folding any list of positive slots. -/
theorem foldl_insertSlot_inv :
    ∀ (todo : List SlotInput) (gs : List SlotGroup),
      (∀ x ∈ todo, x.start < x.stop) → (∀ g ∈ gs, GroupWF g) → EnvDisjoint gs →
      (∀ g ∈ todo.foldl insertSlot gs, GroupWF g) ∧
        EnvDisjoint (todo.foldl insertSlot gs) := by
  intro todo
  induction todo with
  | nil => exact fun gs _ hWF hd => ⟨hWF, hd⟩
  | cons x rest ih =>
    intro gs hpos hWF hd
    have h1 := insertSlot_inv x (hpos x (List.mem_cons_self x rest)) gs hWF hd
    simp only [List.foldl_cons]
    exact ih (insertSlot gs x) (fun y hy => hpos y (List.mem_cons_of_mem x hy)) h1.1 h1.2.1

/-- Provenance through the fold: group members come from the initial groups
or from the processed slots. -/
theorem foldl_insertSlot_mem :
    ∀ (todo : List SlotInput) (gs : List SlotGroup) (g' : SlotGroup),
      g' ∈ todo.foldl insertSlot gs → ∀ m ∈ g'.slots,
        (∃ g ∈ gs, m ∈ g.slots) ∨ m ∈ todo := by
  intro todo
  induction todo with
  | nil => exact fun gs g' hg' m hm => Or.inl ⟨g', hg', hm⟩
  | cons x rest ih =>
    intro gs g' hg' m hm
    simp only [List.foldl_cons] at hg'
    rcases ih (insertSlot gs x) g' hg' m hm with ⟨g2, hg2, hmg2⟩ | hmr
    · rcases insertSlot_mem_slots gs x g2 hg2 m hmg2 with ⟨g3, hg3, hmg3⟩ | heq
      · exact Or.inl ⟨g3, hg3, hmg3⟩
      · exact Or.inr (heq ▸ List.mem_cons_self x rest)
    · exact Or.inr (List.mem_cons_of_mem x hmr)

/-- No empty group is ever created by the fold. -/
theorem foldl_insertSlot_ne_nil :
    ∀ (todo : List SlotInput) (gs : List SlotGroup),
      (∀ g ∈ gs, g.slots ≠ []) → ∀ g' ∈ todo.foldl insertSlot gs, g'.slots ≠ [] := by
  intro todo
  induction todo with
  | nil => exact fun gs h => h
  | cons x rest ih =>
    intro gs h g' hg'
    simp only [List.foldl_cons] at hg'
    exact ih (insertSlot gs x) (insertSlot_slots_ne_nil gs x h) g' hg'

/-- For one day of positive slots, the final Stage-B groups are well formed
with pairwise non-overlapping envelopes. -/
theorem processDay_inv (L : List SlotInput) (hpos : ∀ x ∈ L, x.start < x.stop) :
    (∀ g ∈ processDay L, GroupWF g) ∧ EnvDisjoint (processDay L) := by
  unfold processDay
  exact foldl_insertSlot_inv (List.insertionSort leStart L) []
    (fun x hx => hpos x ((List.perm_insertionSort leStart L).subset hx))
    (fun g hg => absurd hg (List.not_mem_nil g))
    List.Pairwise.nil

/-- Every member of a final Stage-B group is one of that day's slots. -/
theorem processDay_mem (L : List SlotInput) :
    ∀ g ∈ processDay L, ∀ m ∈ g.slots, m ∈ L := by
  intro g hg m hm
  rcases foldl_insertSlot_mem (List.insertionSort leStart L) [] g hg m hm with
    ⟨g2, hg2, _⟩ | hmem
  · exact absurd hg2 (List.not_mem_nil g2)
  · exact (List.perm_insertionSort leStart L).subset hmem

/-- Every final Stage-B group has at least one member. -/
theorem processDay_ne_nil (L : List SlotInput) :
    ∀ g ∈ processDay L, g.slots ≠ [] :=
  foldl_insertSlot_ne_nil (List.insertionSort leStart L) []
    (fun g hg => absurd hg (List.not_mem_nil g))

/-- The first-seen accumulation never duplicates a day. -/
theorem firstSeenDays_nodup_aux :
    ∀ (l : List SlotInput) (acc : List Nat), acc.Nodup →
      (l.foldl (fun acc s => if s.day ∈ acc then acc else acc ++ [s.day]) acc).Nodup := by
  intro l
  induction l with
  | nil => exact fun acc h => h
  | cons s rest ih =>
    intro acc hacc
    simp only [List.foldl_cons]
    by_cases hd : s.day ∈ acc
    · rw [if_pos hd]
      exact ih acc hacc
    · rw [if_neg hd]
      refine ih (acc ++ [s.day]) (List.nodup_append.mpr ⟨hacc, List.nodup_singleton _, ?_⟩)
      intro a ha hb
      rw [List.mem_singleton] at hb
      exact hd (hb ▸ ha)

/-- The day keys of the Stage-B bucketing are distinct. -/
theorem firstSeenDays_nodup (l : List SlotInput) : (firstSeenDays l).Nodup :=
  firstSeenDays_nodup_aux l [] List.nodup_nil

/-- Each final Stage-B group's envelope is exactly the span from the minimum
start to the maximum end of its members: it bounds every member and both
endpoints are attained. -/
theorem processDay_hull (L : List SlotInput) (hpos : ∀ x ∈ L, x.start < x.stop) :
    ∀ g ∈ processDay L,
      (∀ m ∈ g.slots, g.start ≤ m.start ∧ m.stop ≤ g.stop) ∧
      (∃ m ∈ g.slots, m.start = g.start) ∧ (∃ m ∈ g.slots, m.stop = g.stop) := by
  intro g hg
  have hWF := (processDay_inv L hpos).1 g hg
  have hgpos := groupWF_pos hWF
  obtain ⟨_, _, hb, hc⟩ := hWF
  refine ⟨hb, ?_, ?_⟩
  · obtain ⟨m, hm, h1, _⟩ := hc g.start (le_refl _) hgpos
    exact ⟨m, hm, le_antisymm h1 (hb m hm).1⟩
  · obtain ⟨m, hm, _, h2⟩ := hc (g.stop - 1) (by omega) (by omega)
    refine ⟨m, hm, ?_⟩
    have := (hb m hm).2
    omega

/-- Completeness of the component merge: two directly overlapping slots of
one day never end up in two distinct final Stage-B groups. -/
theorem processDay_no_split (L : List SlotInput) (hpos : ∀ x ∈ L, x.start < x.stop) :
    ∀ g1 ∈ processDay L, ∀ g2 ∈ processDay L, ∀ x ∈ g1.slots, ∀ y ∈ g2.slots,
      overlaps x.start x.stop y.start y.stop = true → g1 = g2 := by
  intro g1 hg1 g2 hg2 x hx y hy hov
  by_contra hne
  have hinv := processDay_inv L hpos
  have hWF1 := hinv.1 g1 hg1
  have hWF2 := hinv.1 g2 hg2
  have hd : overlaps g1.start g1.stop g2.start g2.stop = false :=
    List.Pairwise.forall (fun _ _ h => overlaps_symm_false h) hinv.2 hg1 hg2 hne
  have hxpos : x.start < x.stop := hWF1.2.1 x hx
  have hypos : y.start < y.stop := hWF2.2.1 y hy
  obtain ⟨t, ht1, ht2, ht3, ht4⟩ := overlaps_point hov hxpos hypos
  have hb1 := hWF1.2.2.1 x hx
  have hb2 := hWF2.2.2.1 y hy
  have hcon : overlaps g1.start g1.stop g2.start g2.stop = true :=
    @overlaps_of_point g1.start g1.stop g2.start g2.stop t
      (by omega) (by omega) (by omega) (by omega)
  rw [hd] at hcon
  exact Bool.false_ne_true hcon

/-- C2: Stage B emits exactly the connected components of the strict
half-open overlap relation on a day's intervals: (1) for positive intervals,
the emitted blocks of one day are pairwise non-overlapping; (2) the chain
A=[0,100), B=[50,150), C=[140,200) collapses into the single block
[0,200); (3) intervals that merely touch at an endpoint never count as
overlapping; (4) two touching intervals therefore stay in two separate
blocks; (5) each final group spans exactly the min start to the max end of
its members; (6) two directly overlapping intervals always land in the same
group, so no component is ever split. -/
theorem mergeOverlappingSlots_components :
    (∀ slots : List SlotInput, (∀ s ∈ slots, s.start < s.stop) →
      List.Pairwise (fun b1 b2 : DisplayBlock => b1.day = b2.day →
        overlaps b1.start b1.stop b2.start b2.stop = false) (mergeOverlappingSlots slots)) ∧
    mergeOverlappingSlots [⟨entA, 0, 0, 100⟩, ⟨entB, 0, 50, 150⟩, ⟨entC, 0, 140, 200⟩] =
      [⟨0, 0, 200, [entA, entB, entC], true⟩] ∧
    (∀ aS aE bE : Int, overlaps aS aE aE bE = false) ∧
    mergeOverlappingSlots [⟨entA, 0, 0, 100⟩, ⟨entB, 0, 100, 200⟩] =
      [⟨0, 0, 100, [entA], false⟩, ⟨0, 100, 200, [entB], false⟩] ∧
    (∀ slots : List SlotInput, (∀ s ∈ slots, s.start < s.stop) → ∀ d : Nat,
      ∀ g ∈ processDay (slots.filter (fun s => s.day = d)),
        (∀ m ∈ g.slots, g.start ≤ m.start ∧ m.stop ≤ g.stop) ∧
        (∃ m ∈ g.slots, m.start = g.start) ∧ (∃ m ∈ g.slots, m.stop = g.stop)) ∧
    (∀ slots : List SlotInput, (∀ s ∈ slots, s.start < s.stop) → ∀ d : Nat,
      ∀ g1 ∈ processDay (slots.filter (fun s => s.day = d)),
      ∀ g2 ∈ processDay (slots.filter (fun s => s.day = d)),
      ∀ x ∈ g1.slots, ∀ y ∈ g2.slots,
        overlaps x.start x.stop y.start y.stop = true → g1 = g2) := by
  refine ⟨?_, by decide, ?_, by decide, ?_, ?_⟩
  · intro slots hpos
    unfold mergeOverlappingSlots
    rw [List.flatMap_def]
    refine List.pairwise_flatten.mpr ⟨?_, ?_⟩
    · intro l' hl'
      rcases List.mem_map.mp hl' with ⟨d, _, rfl⟩
      rw [List.pairwise_map]
      have hpos' : ∀ x ∈ slots.filter (fun s => s.day = d), x.start < x.stop :=
        fun x hx => hpos x (List.mem_of_mem_filter hx)
      refine (processDay_inv _ hpos').2.imp ?_
      intro g1 g2 h12 _
      exact h12
    · rw [List.pairwise_map]
      refine (firstSeenDays_nodup _).imp ?_
      intro d1 d2 hne x hx y hy hdays
      rcases List.mem_map.mp hx with ⟨g1, _, rfl⟩
      rcases List.mem_map.mp hy with ⟨g2, _, rfl⟩
      exact absurd hdays hne
  · intro aS aE bE
    simp [overlaps]
  · intro slots hpos d
    exact processDay_hull _ (fun x hx => hpos x (List.mem_of_mem_filter hx))
  · intro slots hpos d
    exact processDay_no_split _ (fun x hx => hpos x (List.mem_of_mem_filter hx))

/-- Witness for C2 part (1) at a concrete slot list with an overlap on one
day and a lone slot on another. -/
theorem mergeOverlappingSlots_components_witness :
    List.Pairwise (fun b1 b2 : DisplayBlock => b1.day = b2.day →
      overlaps b1.start b1.stop b2.start b2.stop = false)
      (mergeOverlappingSlots
        [⟨entA, 0, 540, 630⟩, ⟨entB, 0, 600, 700⟩, ⟨entA, 1, 540, 630⟩]) :=
  mergeOverlappingSlots_components.1 _ (by decide)

/-- The seen-set deduplication yields pairwise distinct entry keys, none of
them already seen. -/
theorem dedupEntries_pairwise :
    ∀ (l : List SlotInput) (seen : List String),
      (dedupEntries seen l).Pairwise (fun a b => entryKey a ≠ entryKey b) ∧
      ∀ e ∈ dedupEntries seen l, entryKey e ∉ seen := by
  intro l
  induction l with
  | nil =>
    intro seen
    exact ⟨List.Pairwise.nil, by simp [dedupEntries]⟩
  | cons s rest ih =>
    intro seen
    simp only [dedupEntries]
    by_cases hk : entryKey s.entry ∈ seen
    · rw [if_pos hk]
      exact ih seen
    · rw [if_neg hk]
      obtain ⟨ihp, ihs⟩ := ih (entryKey s.entry :: seen)
      refine ⟨List.pairwise_cons.mpr ⟨?_, ihp⟩, ?_⟩
      · intro e he heq
        exact ihs e he (List.mem_cons.mpr (Or.inl heq.symm))
      · intro e he
        rcases List.mem_cons.mp he with h | h
        · rw [h]; exact hk
        · exact fun hc => ihs e h (List.mem_cons.mpr (Or.inr hc))

/-- The deduplicated entry list is a sublist of the contributing entries, so
it preserves first-seen order. -/
theorem dedupEntries_sublist :
    ∀ (l : List SlotInput) (seen : List String),
      (dedupEntries seen l).Sublist (l.map SlotInput.entry) := by
  intro l
  induction l with
  | nil => intro seen; simp [dedupEntries]
  | cons s rest ih =>
    intro seen
    simp only [dedupEntries, List.map_cons]
    by_cases hk : entryKey s.entry ∈ seen
    · rw [if_pos hk]
      exact List.Sublist.cons s.entry (ih seen)
    · rw [if_neg hk]
      exact List.Sublist.cons₂ s.entry (ih (entryKey s.entry :: seen))

/-- Every contributing slot's entry key is represented (or was already
seen). -/
theorem dedupEntries_covers :
    ∀ (l : List SlotInput) (seen : List String), ∀ m ∈ l,
      entryKey m.entry ∈ seen ∨
        ∃ e ∈ dedupEntries seen l, entryKey e = entryKey m.entry := by
  intro l
  induction l with
  | nil => intro seen m hm; exact absurd hm (List.not_mem_nil m)
  | cons s rest ih =>
    intro seen m hm
    simp only [dedupEntries]
    by_cases hk : entryKey s.entry ∈ seen
    · rw [if_pos hk]
      rcases List.mem_cons.mp hm with h | h
      · exact Or.inl (h ▸ hk)
      · exact ih seen m h
    · rw [if_neg hk]
      rcases List.mem_cons.mp hm with h | h
      · exact Or.inr ⟨s.entry, List.mem_cons_self _ _, by rw [h]⟩
      · rcases ih (entryKey s.entry :: seen) m h with hseen | ⟨e, he, heq⟩
        · rcases List.mem_cons.mp hseen with h2 | h2
          · exact Or.inr ⟨s.entry, List.mem_cons_self _ _, h2.symm⟩
          · exact Or.inl h2
        · exact Or.inr ⟨e, List.mem_cons_of_mem _ he, heq⟩

/-- When every key was already seen, deduplication yields nothing. -/
theorem dedupEntries_all_seen :
    ∀ (l : List SlotInput) (seen : List String),
      (∀ m ∈ l, entryKey m.entry ∈ seen) → dedupEntries seen l = [] := by
  intro l
  induction l with
  | nil => intro seen _; rfl
  | cons s rest ih =>
    intro seen hall
    simp only [dedupEntries]
    rw [if_pos (hall s (List.mem_cons_self s rest))]
    exact ih seen (fun m hm => hall m (List.mem_cons_of_mem s hm))

/-- Contributors sharing one key deduplicate to at most one entry. -/
theorem dedupEntries_single_key :
    ∀ (l : List SlotInput) (seen : List String) (k : String),
      (∀ m ∈ l, entryKey m.entry = k) → (dedupEntries seen l).length ≤ 1 := by
  intro l seen k hall
  cases l with
  | nil => simp [dedupEntries]
  | cons s rest =>
    simp only [dedupEntries]
    have hs : entryKey s.entry = k := hall s (List.mem_cons_self s rest)
    by_cases hk : entryKey s.entry ∈ seen
    · rw [if_pos hk]
      rw [dedupEntries_all_seen rest seen
        (fun m hm => by rw [hall m (List.mem_cons_of_mem s hm), ← hs]; exact hk)]
      simp
    · rw [if_neg hk]
      rw [dedupEntries_all_seen rest (entryKey s.entry :: seen)
        (fun m hm => by
          rw [hall m (List.mem_cons_of_mem s hm), ← hs]
          exact List.mem_cons_self _ _)]
      simp

/-- C4: every display block's entries list holds each distinct
(course code, section code) contributor at most once (pairwise distinct
keys) in first-seen order (it is the seen-set dedup of the block's member
slots, a sublist of their entries covering every member's key), and
`isConflict` is true iff more than one entry remains after deduplication;
in particular a block whose slots all come from one entry is never a
conflict. -/
theorem displayBlock_entries_invariant (slots : List SlotInput) (blk : DisplayBlock)
    (hblk : blk ∈ mergeOverlappingSlots slots) :
    blk.entries.Pairwise (fun e1 e2 => entryKey e1 ≠ entryKey e2) ∧
    (blk.isConflict = true ↔ 1 < blk.entries.length) ∧
    (∃ ms : List SlotInput, ms ≠ [] ∧ (∀ m ∈ ms, m ∈ slots) ∧
      blk.entries = dedupEntries [] ms ∧
      blk.entries.Sublist (ms.map SlotInput.entry) ∧
      ∀ m ∈ ms, ∃ e ∈ blk.entries, entryKey e = entryKey m.entry) ∧
    ∀ e0 : TimetableEntry, (∀ s ∈ slots, s.entry = e0) → blk.isConflict = false := by
  unfold mergeOverlappingSlots at hblk
  rcases List.mem_flatMap.mp hblk with ⟨d, _, hblk2⟩
  rcases List.mem_map.mp hblk2 with ⟨g, hg, rfl⟩
  have hmem : ∀ m ∈ g.slots, m ∈ slots :=
    fun m hm => List.mem_of_mem_filter (processDay_mem _ g hg m hm)
  have hne := processDay_ne_nil _ g hg
  refine ⟨?_, ?_, ?_, ?_⟩
  · exact (dedupEntries_pairwise g.slots []).1
  · exact decide_eq_true_iff
  · refine ⟨g.slots, hne, hmem, rfl, dedupEntries_sublist g.slots [], ?_⟩
    intro m hm
    exact (dedupEntries_covers g.slots [] m hm).resolve_left (List.not_mem_nil _)
  · intro e0 h0
    have hlen := dedupEntries_single_key g.slots [] (entryKey e0)
      (fun m hm => by rw [h0 m (hmem m hm)])
    exact decide_eq_false (by omega)

/-- Witness for C4 at a single-entry slot list whose one block is not a
conflict. -/
theorem displayBlock_entries_invariant_witness :
    (⟨0, 540, 630, [entA], false⟩ : DisplayBlock).entries.Pairwise
      (fun e1 e2 => entryKey e1 ≠ entryKey e2) ∧
    (⟨0, 540, 630, [entA], false⟩ : DisplayBlock).isConflict = false :=
  ⟨(displayBlock_entries_invariant [⟨entA, 0, 540, 630⟩]
      ⟨0, 540, 630, [entA], false⟩ (by decide)).1,
   (displayBlock_entries_invariant [⟨entA, 0, 540, 630⟩]
      ⟨0, 540, 630, [entA], false⟩ (by decide)).2.2.2 entA (by decide)⟩

/-- The push-per-matching-token loop of the parser equals a `filterMap` over
the tokens. -/
theorem parse_foldl_filterMap :
    ∀ (toks : List (List Char)) (acc : List LectureSlot),
      toks.foldl (fun slots pair =>
        match matchToken pair with
        | none => slots
        | some (d, period) =>
          let se := periodToMinutes period
          slots ++ [{ day := d, startMinutes := se.1, endMinutes := se.2 }]) acc =
      acc ++ toks.filterMap (fun t => (matchToken t).map
        (fun dp => { day := dp.1, startMinutes := (periodToMinutes dp.2).1,
                     endMinutes := (periodToMinutes dp.2).2 })) := by
  intro toks
  induction toks with
  | nil => intro acc; simp
  | cons t rest ih =>
    intro acc
    simp only [List.foldl_cons, List.filterMap_cons]
    cases hmt : matchToken t with
    | none => simp [ih acc]
    | some dp =>
      cases dp with
      | mk d p =>
        rw [ih (acc ++ [_])]
        simp [List.append_assoc]

/-- Day labels map into the range 0..6. -/
theorem DAY_MAP_le_6 {c : Char} {d : Nat} (h : DAY_MAP c = some d) : d ≤ 6 := by
  unfold DAY_MAP at h
  split_ifs at h <;> simp_all <;> omega

/-- The implementation's per-token result coincides with the
specification's per-token slot. -/
theorem matchToken_spec (t : List Char) :
    (matchToken t).map (fun dp =>
      ({ day := dp.1, startMinutes := (periodToMinutes dp.2).1,
         endMinutes := (periodToMinutes dp.2).2 } : LectureSlot)) = specTokenSlot t := by
  cases t with
  | nil => rfl
  | cons c ds =>
    simp only [matchToken, specTokenSlot]
    cases hdm : DAY_MAP c with
    | none => rfl
    | some d =>
      dsimp only
      by_cases hcond : ds ≠ [] ∧ ds.all Char.isDigit
      · rw [if_pos hcond, if_pos hcond]
        simp [periodToMinutes, PERIOD_START_MINUTES, PERIOD_DURATION_MINUTES]
      · rw [if_neg hcond, if_neg hcond]
        rfl

/-- C5: for every input string the parser returns exactly the slots of the
specification contract — split the trimmed input on whitespace, and for each
token of a recognized day label followed by digits for a period p emit
(day, 450 + 90p, 450 + 90p + 90), in token order, silently skipping
non-matching tokens; whitespace-only input gives the empty list, every day
index is 0..6, and every slot lasts exactly 90 minutes.  (Totality is by
construction: the model is a Lean function, mirroring the exception-free
source loop.) -/
theorem parseLectureTime_matches_spec (s : String) :
    parseLectureTime s = specParseLectureTime s ∧
    (trimWs s.data = [] → parseLectureTime s = []) ∧
    (∀ sl ∈ parseLectureTime s, sl.day ≤ 6 ∧ sl.endMinutes = sl.startMinutes + 90) := by
  have h1 : parseLectureTime s = specParseLectureTime s := by
    unfold parseLectureTime specParseLectureTime
    by_cases ht : trimWs s.data = []
    · rw [if_pos ht, ht]
      rfl
    · rw [if_neg ht, parse_foldl_filterMap]
      simp only [List.nil_append]
      rw [funext matchToken_spec]
  refine ⟨h1, ?_, ?_⟩
  · intro ht
    unfold parseLectureTime
    rw [if_pos ht]
  · intro sl hsl
    rw [h1] at hsl
    unfold specParseLectureTime at hsl
    rcases List.mem_filterMap.mp hsl with ⟨t, _, hspec⟩
    cases t with
    | nil => simp [specTokenSlot] at hspec
    | cons c ds =>
      simp only [specTokenSlot] at hspec
      cases hdm : DAY_MAP c with
      | none => rw [hdm] at hspec; exact absurd hspec (by simp)
      | some d =>
        rw [hdm] at hspec
        dsimp only at hspec
        by_cases hcond : ds ≠ [] ∧ ds.all Char.isDigit
        · rw [if_pos hcond] at hspec
          have heq := Option.some_inj.mp hspec
          rw [← heq]
          exact ⟨DAY_MAP_le_6 hdm, rfl⟩
        · rw [if_neg hcond] at hspec
          exact absurd hspec (by simp)

/-- Witness for C5 at a concrete schedule string and a whitespace-only
string. -/
theorem parseLectureTime_matches_spec_witness :
    parseLectureTime "월4 수3" = specParseLectureTime "월4 수3" ∧
    parseLectureTime "  " = [] :=
  ⟨(parseLectureTime_matches_spec "월4 수3").1,
   (parseLectureTime_matches_spec "  ").2.1 (by decide)⟩

/-- Digit characters are digits. -/
theorem digitChar_isDigit {r : Nat} (h : r < 10) : (digitChar r).isDigit = true := by
  unfold digitChar
  interval_cases r <;> decide

/-- Code point of a digit character. -/
theorem digitChar_toNat {r : Nat} (h : r < 10) : (digitChar r).toNat = 48 + r := by
  unfold digitChar
  interval_cases r <;> decide

/-- Appending one digit multiplies the value by ten and adds the digit. -/
theorem digitsVal_append (l : List Char) (c : Char) :
    digitsVal (l ++ [c]) = digitsVal l * 10 + (c.toNat - 48) := by
  unfold digitsVal
  rw [List.foldl_append]
  rfl

/-- A number's digit string is never empty. -/
theorem natDigits_ne_nil (n : Nat) : natDigits n ≠ [] := by
  rw [natDigits]
  split_ifs <;> simp

/-- A number's digit string consists of digits. -/
theorem natDigits_all_digit : ∀ n : Nat, (natDigits n).all Char.isDigit = true := by
  intro n
  induction n using Nat.strong_induction_on with
  | _ n ih =>
    rw [natDigits]
    split_ifs with h
    · simp [digitChar_isDigit h]
    · rw [List.all_append]
      rw [ih (n / 10) (Nat.div_lt_self (by omega) (by omega))]
      simp [digitChar_isDigit (Nat.mod_lt n (by omega))]

/-- Parsing the digit string of a number recovers the number. -/
theorem digitsVal_natDigits : ∀ n : Nat, digitsVal (natDigits n) = n := by
  intro n
  induction n using Nat.strong_induction_on with
  | _ n ih =>
    rw [natDigits]
    split_ifs with h
    · show digitsVal [digitChar n] = n
      unfold digitsVal
      simp only [List.foldl_cons, List.foldl_nil]
      rw [digitChar_toNat h]
      omega
    · rw [digitsVal_append, ih (n / 10) (Nat.div_lt_self (by omega) (by omega)),
        digitChar_toNat (Nat.mod_lt n (by omega))]
      omega

/-- Digit characters are not whitespace. -/
theorem isDigit_not_ws {c : Char} (h : c.isDigit = true) : isWs c = false := by
  simp only [isWs, Char.isWhitespace, Bool.or_eq_false_iff, decide_eq_false_iff_not]
  refine ⟨⟨⟨?_, ?_⟩, ?_⟩, ?_⟩ <;> (intro he; subst he; exact absurd h (by decide))

/-- Dropping whitespace from a whitespace-free list is the identity. -/
theorem dropWhile_no_ws {l : List Char} (h : ∀ c ∈ l, isWs c = false) :
    l.dropWhile isWs = l := by
  cases l with
  | nil => rfl
  | cons c t =>
    rw [List.dropWhile_cons, if_neg]
    rw [h c (List.mem_cons_self c t)]
    simp

/-- Trimming a whitespace-free string is the identity. -/
theorem trimWs_no_ws {l : List Char} (h : ∀ c ∈ l, isWs c = false) : trimWs l = l := by
  unfold trimWs
  rw [dropWhile_no_ws h, dropWhile_no_ws (fun c hc => h c (List.mem_reverse.mp hc)),
    List.reverse_reverse]

/-- Splitting a whitespace-free string yields the one token. -/
theorem splitWsAux_no_ws :
    ∀ (l acc : List Char), (∀ c ∈ l, isWs c = false) →
      splitWsAux l acc = if acc.reverse ++ l = [] then [] else [acc.reverse ++ l] := by
  intro l
  induction l with
  | nil =>
    intro acc _
    simp only [splitWsAux, List.append_nil]
    by_cases hacc : acc = []
    · rw [if_pos hacc, if_pos (by rw [hacc]; rfl)]
    · rw [if_neg hacc, if_neg (by simp [hacc])]
  | cons c t ih =>
    intro acc h
    simp only [splitWsAux]
    rw [h c (List.mem_cons_self c t)]
    simp only [Bool.false_eq_true, if_false]
    rw [ih (c :: acc) (fun x hx => h x (List.mem_cons_of_mem c hx))]
    simp [List.reverse_cons, List.append_assoc]

/-- C10: the parser imposes no upper bound on the period number: every
natural number k is the value of some nonempty digit string, the token of a
day label followed by such digits always parses to the single slot
(450 + 90k, 450 + 90k + 90) with no range validation, and for k >= 11 the
slot's end 540 + 90k exceeds 1440, extending past midnight. -/
theorem parseLectureTime_period_unbounded :
    (∀ k : Nat, natDigits k ≠ [] ∧ (natDigits k).all Char.isDigit = true ∧
      digitsVal (natDigits k) = k) ∧
    (∀ ds : List Char, ds ≠ [] → ds.all Char.isDigit = true →
      parseLectureTime (String.mk ('월' :: ds)) =
        [⟨0, 450 + (digitsVal ds : Int) * 90, 450 + (digitsVal ds : Int) * 90 + 90⟩]) ∧
    (∀ ds : List Char, 11 ≤ digitsVal ds →
      (1440 : Int) < 450 + (digitsVal ds : Int) * 90 + 90) := by
  refine ⟨?_, ?_, ?_⟩
  · intro k
    exact ⟨natDigits_ne_nil k, natDigits_all_digit k, digitsVal_natDigits k⟩
  · intro ds hne hdig
    have hnw : ∀ c ∈ '월' :: ds, isWs c = false := by
      intro c hc
      rcases List.mem_cons.mp hc with h | h
      · subst h; decide
      · exact isDigit_not_ws (List.all_eq_true.mp hdig c h)
    unfold parseLectureTime
    have hdata : (String.mk ('월' :: ds)).data = '월' :: ds := rfl
    rw [hdata, trimWs_no_ws hnw, if_neg (by simp : ¬('월' :: ds = []))]
    unfold splitWs
    rw [splitWsAux_no_ws ('월' :: ds) [] hnw, if_neg (by simp)]
    simp only [List.reverse_nil, List.nil_append, List.foldl_cons, List.foldl_nil]
    have hmt : matchToken ('월' :: ds) = some (0, digitsVal ds) := by
      simp only [matchToken]
      rw [show DAY_MAP '월' = some 0 from rfl]
      dsimp only
      rw [if_pos ⟨hne, hdig⟩]
    rw [hmt]
    simp [periodToMinutes, PERIOD_START_MINUTES, PERIOD_DURATION_MINUTES]
  · intro ds h
    omega

/-- Witness for C10 at the token 월11, whose slot ends at 1530 > 1440. -/
theorem parseLectureTime_period_unbounded_witness :
    parseLectureTime (String.mk ['월', '1', '1']) =
      [⟨0, 1440, 1530⟩] ∧ (1440 : Int) < 1530 := by
  have h := parseLectureTime_period_unbounded.2.1 ['1', '1'] (by decide) (by decide)
  refine ⟨?_, by decide⟩
  rw [h]
  decide

/-- Clamped quantities lie in the unit percentage range. -/
theorem clamp01 (x : ℚ) : 0 ≤ min 100 (max 0 x) ∧ min 100 (max 0 x) ≤ 100 :=
  ⟨le_min (by norm_num) (le_max_left _ _), min_le_left _ _⟩

/-- The height, a floored difference of two clamped quantities, also lies in
the percentage range. -/
theorem clampHeight (x y : ℚ) :
    0 ≤ max 0 (min 100 (max 0 y) - min 100 (max 0 x)) ∧
    max 0 (min 100 (max 0 y) - min 100 (max 0 x)) ≤ 100 := by
  constructor
  · exact le_max_left _ _
  · apply max_le (by norm_num)
    have h1 : min 100 (max 0 y) ≤ 100 := min_le_left _ _
    have h2 : (0 : ℚ) ≤ min 100 (max 0 x) := le_min (by norm_num) (le_max_left _ _)
    linarith

/-- C7: for every block and every window — including degenerate windows,
where the divisor `totalMinutes` is floored at one minute, so no division by
zero can occur — the computed top and height percentages lie in [0, 100],
and every block whose height is not strictly positive is excluded from the
positioned-blocks output. -/
theorem layout_clamped :
    (∀ (gridStart gridEnd : Int) (b : DisplayBlock),
      1 ≤ totalMinutesOf gridStart gridEnd ∧
      0 ≤ (positionBlock gridStart gridEnd b).topPercent ∧
      (positionBlock gridStart gridEnd b).topPercent ≤ 100 ∧
      0 ≤ (positionBlock gridStart gridEnd b).heightPercent ∧
      (positionBlock gridStart gridEnd b).heightPercent ≤ 100) ∧
    (∀ (entries : List TimetableEntry) (cs ce : Option String) (incl : Option (List Nat)),
      ∀ pb ∈ (computeView entries cs ce incl).blocks, 0 < pb.heightPercent) := by
  constructor
  · intro gridStart gridEnd b
    exact ⟨le_max_left _ _, (clamp01 _).1, (clamp01 _).2, (clampHeight _ _).1,
      (clampHeight _ _).2⟩
  · intro entries cs ce incl pb hpb
    simp only [computeView] at hpb
    exact of_decide_eq_true (List.mem_filter.mp hpb).2

/-- The positioned-blocks output, written through the projections of the
view result (definitional). -/
theorem computeView_blocks_eq (entries : List TimetableEntry)
    (cs ce : Option String) (incl : Option (List Nat)) :
    (computeView entries cs ce incl).blocks =
      (((mergeOverlappingSlots (mergeConsecutiveSlots (parseAllSlots entries))).filter
          (fun s => decide (s.day ∈ (computeView entries cs ce incl).days))).map
        (positionBlock (computeView entries cs ce incl).gridStart
          (computeView entries cs ce incl).gridEnd)).filter
        (fun b => decide (0 < b.heightPercent)) := rfl

/-- The 월4 block positioned in the default 540..1080 window. -/
theorem positionBlock_mon4 :
    positionBlock 540 1080 ⟨0, 810, 900, [entMon4], false⟩ =
      ⟨0, 810, 900, [entMon4], false, 50, 50 / 3⟩ := by
  simp only [positionBlock, totalMinutesOf]
  norm_num [min_def, max_def]

/-- The 월4 block appears in the positioned output under the default view
state. -/
theorem positionBlock_mon4_mem :
    (⟨0, 810, 900, [entMon4], false, 50, 50 / 3⟩ : PositionedBlock) ∈
      (computeView [entMon4] none none none).blocks := by
  rw [computeView_blocks_eq]
  rw [show (computeView [entMon4] none none none).days = [0, 1, 2, 3, 4] from by decide]
  rw [show (computeView [entMon4] none none none).gridStart = 540 from by decide]
  rw [show (computeView [entMon4] none none none).gridEnd = 1080 from by decide]
  rw [show mergeOverlappingSlots (mergeConsecutiveSlots (parseAllSlots [entMon4])) =
    [⟨0, 810, 900, [entMon4], false⟩] from by decide]
  rw [List.mem_filter]
  constructor
  · rw [List.mem_map]
    exact ⟨⟨0, 810, 900, [entMon4], false⟩, by simp, positionBlock_mon4⟩
  · rw [decide_eq_true_iff]
    norm_num

/-- Witness for C7: the 월4 block kept in the output indeed has positive
height. -/
theorem layout_clamped_witness :
    0 < (⟨0, 810, 900, [entMon4], false, 50, 50 / 3⟩ : PositionedBlock).heightPercent :=
  layout_clamped.2 [entMon4] none none none
    ⟨0, 810, 900, [entMon4], false, 50, 50 / 3⟩ positionBlock_mon4_mem

/-- C8: the whole pipeline is deterministic — two evaluations of the view
computation on the same entries and view state give the same bounds, day
list, positioned blocks and label lists, in value and order.  (In this
embedding the pipeline is a pure function; the modelling choices that make
this faithful — insertion-ordered `Map`/`Set` iteration and a stable sort,
which the JS runtime guarantees — are recorded at the definitions.) -/
theorem computeView_deterministic (entries : List TimetableEntry)
    (cs ce : Option String) (incl : Option (List Nat)) :
    computeView entries cs ce incl = computeView entries cs ce incl ∧
    (computeView entries cs ce incl).gridStart = (computeView entries cs ce incl).gridStart ∧
    (computeView entries cs ce incl).gridEnd = (computeView entries cs ce incl).gridEnd ∧
    (computeView entries cs ce incl).days = (computeView entries cs ce incl).days ∧
    (computeView entries cs ce incl).blocks = (computeView entries cs ce incl).blocks ∧
    (computeView entries cs ce incl).timeLabels =
      (computeView entries cs ce incl).timeLabels ∧
    (computeView entries cs ce incl).periodLabels =
      (computeView entries cs ce incl).periodLabels :=
  ⟨rfl, rfl, rfl, rfl, rfl, rfl, rfl⟩

/-- Membership in the first-seen day accumulation implies membership in the
seed or in the scanned list. -/
theorem foldl_seen_mem :
    ∀ (l acc : List Nat) (x : Nat),
      x ∈ l.foldl (fun acc d => if d ∈ acc then acc else acc ++ [d]) acc →
      x ∈ acc ∨ x ∈ l := by
  intro l
  induction l with
  | nil => exact fun acc x hx => Or.inl hx
  | cons d rest ih =>
    intro acc x hx
    simp only [List.foldl_cons] at hx
    by_cases hd : d ∈ acc
    · rw [if_pos hd] at hx
      rcases ih acc x hx with h | h
      · exact Or.inl h
      · exact Or.inr (List.mem_cons_of_mem d h)
    · rw [if_neg hd] at hx
      rcases ih (acc ++ [d]) x hx with h | h
      · rcases List.mem_append.mp h with h2 | h2
        · exact Or.inl h2
        · rw [List.mem_singleton] at h2
          exact Or.inr (h2 ▸ List.mem_cons_self d rest)
      · exact Or.inr (List.mem_cons_of_mem d h)

/-- C9: every positioned block's day belongs to the resolved day list, and
when the view state supplies an explicit included-day set, every positioned
block's day belongs to that set — blocks on any other day are dropped even
when their time range lies inside the window. -/
theorem blocks_only_visible_days (entries : List TimetableEntry)
    (cs ce : Option String) (incl : Option (List Nat)) :
    (∀ pb ∈ (computeView entries cs ce incl).blocks,
      pb.day ∈ (computeView entries cs ce incl).days) ∧
    (∀ ds : List Nat, ∀ pb ∈ (computeView entries cs ce (some ds)).blocks,
      pb.day ∈ ds) := by
  have hday : ∀ (incl2 : Option (List Nat)) (pb : PositionedBlock),
      pb ∈ (computeView entries cs ce incl2).blocks →
      pb.day ∈ (computeView entries cs ce incl2).days := by
    intro incl2 pb hpb
    simp only [computeView] at hpb ⊢
    have h1 := (List.mem_filter.mp hpb).1
    rcases List.mem_map.mp h1 with ⟨s, hs, rfl⟩
    exact of_decide_eq_true (List.mem_filter.mp hs).2
  constructor
  · exact fun pb hpb => hday incl pb hpb
  · intro ds pb hpb
    have h := hday (some ds) pb hpb
    have hdays : (computeView entries cs ce (some ds)).days =
        List.insertionSort (fun a b => a ≤ b) (dedupDays ds) := rfl
    rw [hdays] at h
    have h2 := (List.perm_insertionSort (fun a b : Nat => a ≤ b) (dedupDays ds)).subset h
    rcases foldl_seen_mem ds [] pb.day h2 with h3 | h3
    · exact absurd h3 (List.not_mem_nil _)
    · exact h3

/-- The 월4 block also appears when the included-day set is exactly
Monday. -/
theorem positionBlock_mon4_mem_included :
    (⟨0, 810, 900, [entMon4], false, 50, 50 / 3⟩ : PositionedBlock) ∈
      (computeView [entMon4] none none (some [0])).blocks := by
  rw [computeView_blocks_eq]
  rw [show (computeView [entMon4] none none (some [0])).days = [0] from by decide]
  rw [show (computeView [entMon4] none none (some [0])).gridStart = 540 from by decide]
  rw [show (computeView [entMon4] none none (some [0])).gridEnd = 1080 from by decide]
  rw [show mergeOverlappingSlots (mergeConsecutiveSlots (parseAllSlots [entMon4])) =
    [⟨0, 810, 900, [entMon4], false⟩] from by decide]
  rw [List.mem_filter]
  constructor
  · rw [List.mem_map]
    exact ⟨⟨0, 810, 900, [entMon4], false⟩, by simp, positionBlock_mon4⟩
  · rw [decide_eq_true_iff]
    norm_num

/-- Witness for C9: with the included-day set {Monday}, the kept 월4 block's
day is a member of that set. -/
theorem blocks_only_visible_days_witness :
    (⟨0, 810, 900, [entMon4], false, 50, 50 / 3⟩ : PositionedBlock).day ∈ [0] :=
  (blocks_only_visible_days [entMon4] none none none).2 [0]
    ⟨0, 810, 900, [entMon4], false, 50, 50 / 3⟩ positionBlock_mon4_mem_included
